import Mathlib

/-!
Verification of the Connect Four search-and-evaluation core
(`connect_four_ai_core.py`): board queries, win detection, the window
heuristic, and minimax with alpha-beta pruning.

Scores and the alpha/beta bounds live in `EInt`, the integers extended with
`⊥` and `⊤`: the Python code initialises `alpha`, `beta` and the running
`value` with `-math.inf` / `math.inf`, and only ever compares them with
integer-valued scores, so the value space is exactly ℤ ∪ {−∞, +∞}.

The nondeterminism of `random.choice` is modelled by an explicit choice
oracle `ch : List Nat → Nat`; an exception (IndexError on an empty list,
or indexing with the `None` fall-through of `get_next_open_row`) is
modelled by the `Option` monad: `none` means an exception propagated.
-/

abbrev EInt := WithBot (WithTop ℤ)

def EInt.ofInt (n : ℤ) : EInt := ((n : WithTop ℤ) : WithBot (WithTop ℤ))

-- Game constants (connect_four_ai_core.py, lines 7-12)
def ROW_COUNT : Nat := 6
def COLUMN_COUNT : Nat := 7
def PLAYER_PIECE : Nat := 1
def AI_PIECE : Nat := 2
def EMPTY : Nat := 0
def WINDOW_LENGTH : Nat := 4

/-- A board is a list of rows (row 0 is the bottom), each a list of cells. -/
abbrev Board := List (List Nat)

/-- `board[r][col]` of the Python code (all reads in the core are in range
on a 6×7 board; out-of-range reads default to `EMPTY`). -/
def cell (board : Board) (r c : Nat) : Nat := (board.getD r []).getD c EMPTY

/-- Checks if the top row of a column is empty. -/
def is_valid_location (board : Board) (col : Nat) : Bool :=
  cell board (ROW_COUNT - 1) col == EMPTY

/-- Finds the lowest empty row in the given column; `none` models the
Python fall-through (the function returns `None` when the column is full). -/
def get_next_open_row (board : Board) (col : Nat) : Option Nat :=
  (List.range ROW_COUNT).find? (fun r => cell board r col == EMPTY)

/-- Returns the list of columns where a piece can be dropped, ascending. -/
def get_valid_locations (board : Board) : List Nat :=
  (List.range COLUMN_COUNT).filter (fun col => is_valid_location board col)

/-- Checks for 4-in-a-row (horizontal, vertical, and both diagonals). -/
def is_winning_move (board : Board) (piece : Nat) : Bool :=
  ((List.range (COLUMN_COUNT - 3)).any fun c => (List.range ROW_COUNT).any fun r =>
      (List.range 4).all fun i => cell board r (c + i) == piece) ||
  ((List.range COLUMN_COUNT).any fun c => (List.range (ROW_COUNT - 3)).any fun r =>
      (List.range 4).all fun i => cell board (r + i) c == piece) ||
  ((List.range (COLUMN_COUNT - 3)).any fun c => (List.range (ROW_COUNT - 3)).any fun r =>
      (List.range 4).all fun i => cell board (r + i) (c + i) == piece) ||
  ((List.range (COLUMN_COUNT - 3)).any fun c => (List.range' 3 (ROW_COUNT - 3)).any fun r =>
      (List.range 4).all fun i => cell board (r - i) (c + i) == piece)

/-- Checks if the game is over (win or draw). -/
def is_terminal_node (board : Board) : Bool :=
  is_winning_move board PLAYER_PIECE || is_winning_move board AI_PIECE ||
    (get_valid_locations board).length == 0

/-- The core heuristic evaluation: assigns a score to a 4-piece window. -/
def evaluate_window (window : List Nat) (piece : Nat) : Int :=
  let opp_piece := if piece == PLAYER_PIECE then AI_PIECE else PLAYER_PIECE
  let score : Int :=
    if window.count piece == 4 then 100000
    else if window.count piece == 3 && window.count EMPTY == 1 then 50
    else if window.count piece == 2 && window.count EMPTY == 2 then 5
    else 0
  if window.count opp_piece == 3 && window.count EMPTY == 1 then score - 4000 else score

/-- Calculates the total score for the entire board by checking all
possible 4-piece windows, plus the center-column bonus. -/
def score_position (board : Board) (piece : Nat) : Int :=
  let center_count :=
    ((List.range ROW_COUNT).map fun r => cell board r (COLUMN_COUNT / 2)).count piece
  let centerScore : Int := (center_count : Int) * 3
  let horizontal : Int := ((List.range ROW_COUNT).map fun r =>
    ((List.range (COLUMN_COUNT - 3)).map fun c =>
      evaluate_window ((List.range WINDOW_LENGTH).map fun i => cell board r (c + i)) piece).sum).sum
  let vertical : Int := ((List.range COLUMN_COUNT).map fun c =>
    ((List.range (ROW_COUNT - 3)).map fun r =>
      evaluate_window ((List.range WINDOW_LENGTH).map fun i => cell board (r + i) c) piece).sum).sum
  let diagonal : Int := ((List.range (ROW_COUNT - 3)).map fun r =>
    ((List.range (COLUMN_COUNT - 3)).map fun c =>
      evaluate_window ((List.range WINDOW_LENGTH).map fun i => cell board (r + i) (c + i)) piece +
      evaluate_window ((List.range WINDOW_LENGTH).map fun i => cell board (r + 3 - i) (c + i)) piece).sum).sum
  centerScore + horizontal + vertical + diagonal

/-- `temp_board[row][col] = piece` on a fresh copy of the board. -/
def setCell (board : Board) (r c piece : Nat) : Board :=
  board.set r ((board.getD r []).set c piece)

/-- Value of the terminal branch of `minimax` (lines 130-139). -/
def terminalResult (board : Board) : Option Nat × EInt :=
  if is_winning_move board AI_PIECE then (none, EInt.ofInt 100000000000000)
  else if is_winning_move board PLAYER_PIECE then (none, EInt.ofInt (-100000000000000))
  else (none, EInt.ofInt 0)

/-- The maximizing-player loop of `minimax` (lines 145-165): scan `cols`,
recursing through `f`; carry the running best `column`/`value` and the
`alpha` bound; stop on `alpha ≥ beta`. -/
def maxStep (f : Board → EInt → EInt → Option (Option Nat × EInt)) (board : Board) :
    List Nat → EInt → EInt → Nat → EInt → Option (Option Nat × EInt)
  | [], _, _, column, value => some (some column, value)
  | col :: rest, alpha, beta, column, value =>
    match get_next_open_row board col with
    | none => none
    | some row =>
      let temp_board := setCell board row col AI_PIECE
      match f temp_board alpha beta with
      | none => none
      | some res =>
        let new_score := res.2
        let value' := if value < new_score then new_score else value
        let column' := if value < new_score then col else column
        let alpha' := max alpha value'
        if beta ≤ alpha' then some (some column', value')
        else maxStep f board rest alpha' beta column' value'

/-- The minimizing-player loop of `minimax` (lines 168-188). -/
def minStep (f : Board → EInt → EInt → Option (Option Nat × EInt)) (board : Board) :
    List Nat → EInt → EInt → Nat → EInt → Option (Option Nat × EInt)
  | [], _, _, column, value => some (some column, value)
  | col :: rest, alpha, beta, column, value =>
    match get_next_open_row board col with
    | none => none
    | some row =>
      let temp_board := setCell board row col PLAYER_PIECE
      match f temp_board alpha beta with
      | none => none
      | some res =>
        let new_score := res.2
        let value' := if new_score < value then new_score else value
        let column' := if new_score < value then col else column
        let beta' := min beta value'
        if beta' ≤ alpha then some (some column', value')
        else minStep f board rest alpha beta' column' value'

/-- The recursive adversarial search algorithm with alpha-beta pruning
(`minimax`, lines 122-188).  `ch` is the oracle standing for
`random.choice`; a result of `none` models an exception escaping the call. -/
def minimax (ch : List Nat → Nat) : Board → Nat → EInt → EInt → Bool → Option (Option Nat × EInt)
  | board, 0, _, _, _ =>
    if is_terminal_node board then some (terminalResult board)
    else some (none, EInt.ofInt (score_position board AI_PIECE))
  | board, depth + 1, alpha, beta, maximizing_player =>
    let valid_locations := get_valid_locations board
    if is_terminal_node board then some (terminalResult board)
    else if valid_locations.isEmpty then none
    else
      let column := ch valid_locations
      if maximizing_player then
        maxStep (fun b a bt => minimax ch b depth a bt false) board valid_locations
          alpha beta column ⊥
      else
        minStep (fun b a bt => minimax ch b depth a bt true) board valid_locations
          alpha beta column ⊤

/-- The canonical choice oracle: pick the first valid column.  Any other
oracle gives the same search result (`minimax_choice_irrelevant`). -/
def chFirst (l : List Nat) : Nat := l.headD 0

/-- A second oracle, picking the last valid column, used to exhibit two
distinct "runs" of the randomized seed. -/
def chLast (l : List Nat) : Nat := l.getLastD 0

/-- The all-empty 6×7 board. -/
def emptyBoard : Board := List.replicate ROW_COUNT (List.replicate COLUMN_COUNT EMPTY)

example : get_valid_locations emptyBoard = [0, 1, 2, 3, 4, 5, 6] := by decide
example : minimax chFirst emptyBoard 0 ⊥ ⊤ true = some (none, EInt.ofInt 0) := by decide

/-! ### Basic facts about the board helpers -/

theorem ofInt_le_ofInt {m n : ℤ} : EInt.ofInt m ≤ EInt.ofInt n ↔ m ≤ n := by
  simp [EInt.ofInt]

theorem ofInt_lt_ofInt {m n : ℤ} : EInt.ofInt m < EInt.ofInt n ↔ m < n := by
  simp [EInt.ofInt]

theorem bot_lt_ofInt (n : ℤ) : (⊥ : EInt) < EInt.ofInt n := WithBot.bot_lt_coe _

theorem ofInt_lt_top (n : ℤ) : EInt.ofInt n < (⊤ : EInt) := by
  rw [lt_top_iff_ne_top]
  intro h
  rw [EInt.ofInt] at h
  have h' : ((n : WithTop ℤ)) = (⊤ : WithTop ℤ) := by
    exact_mod_cast h
  exact (WithTop.coe_ne_top) h'

theorem max_ofInt (m n : ℤ) : max (EInt.ofInt m) (EInt.ofInt n) = EInt.ofInt (max m n) := by
  simp [EInt.ofInt, ← WithBot.coe_max, ← WithTop.coe_max]

theorem min_ofInt (m n : ℤ) : min (EInt.ofInt m) (EInt.ofInt n) = EInt.ofInt (min m n) := by
  simp [EInt.ofInt, ← WithBot.coe_min, ← WithTop.coe_min]

theorem ite_lt_eq_max (x y : EInt) : (if x < y then y else x) = max x y := by
  split_ifs with h
  · exact (max_eq_right h.le).symm
  · exact (max_eq_left (le_of_not_lt h)).symm

theorem ite_lt_eq_min (x y : EInt) : (if y < x then y else x) = min x y := by
  split_ifs with h
  · exact (min_eq_right h.le).symm
  · exact (min_eq_left (le_of_not_lt h)).symm

theorem is_valid_of_mem_valid {board : Board} {col : Nat}
    (h : col ∈ get_valid_locations board) : is_valid_location board col = true := by
  rw [get_valid_locations] at h
  exact (List.mem_filter.mp h).2

theorem get_next_open_row_isSome {board : Board} {col : Nat}
    (h : is_valid_location board col = true) :
    ∃ row, get_next_open_row board col = some row := by
  rw [is_valid_location] at h
  have : (get_next_open_row board col).isSome := by
    rw [get_next_open_row, List.find?_isSome]
    exact ⟨ROW_COUNT - 1, by simp [ROW_COUNT], h⟩
  exact Option.isSome_iff_exists.mp this

theorem valid_ne_nil_of_not_terminal {board : Board}
    (h : is_terminal_node board = false) : get_valid_locations board ≠ [] := by
  rw [is_terminal_node] at h
  simp only [Bool.or_eq_false_iff, beq_iff_eq] at h
  intro hnil
  rw [hnil] at h
  simp at h

/-! ### Totality, finiteness and membership of the search result -/

theorem maxStep_some
    (f : Board → EInt → EInt → Option (Option Nat × EInt)) (board : Board)
    (hf : ∀ b a bt, ∃ c n, f b a bt = some (c, EInt.ofInt n)) :
    ∀ (l : List Nat) (alpha beta : EInt) (column : Nat) (value : EInt),
    (∀ col ∈ l, is_valid_location board col = true) →
    ((∃ n, value = EInt.ofInt n) ∨ (value = ⊥ ∧ l ≠ [])) →
    ∃ c v, maxStep f board l alpha beta column value = some (some c, EInt.ofInt v) ∧
      (c ∈ l ∨ (c = column ∧ ∃ n, value = EInt.ofInt n)) := by
  intro l
  induction l with
  | nil =>
    intro alpha beta column value _ hval
    rcases hval with ⟨n, rfl⟩ | ⟨_, hne⟩
    · exact ⟨column, n, rfl, Or.inr ⟨rfl, n, rfl⟩⟩
    · exact absurd rfl hne
  | cons col rest ih =>
    intro alpha beta column value hrows hval
    obtain ⟨row, hrow⟩ := get_next_open_row_isSome (hrows col (List.mem_cons_self _ _))
    obtain ⟨c₀, n₀, hf₀⟩ := hf (setCell board row col AI_PIECE) alpha beta
    have hval' : ∃ m, (if value < EInt.ofInt n₀ then EInt.ofInt n₀ else value) = EInt.ofInt m := by
      rcases hval with ⟨n, rfl⟩ | ⟨rfl, -⟩
      · split_ifs <;> exact ⟨_, rfl⟩
      · rw [if_pos (bot_lt_ofInt n₀)]; exact ⟨n₀, rfl⟩
    obtain ⟨m, hm⟩ := hval'
    simp only [maxStep, hrow, hf₀, hm]
    by_cases hbr : beta ≤ max alpha (EInt.ofInt m)
    · rw [if_pos hbr]
      refine ⟨if value < EInt.ofInt n₀ then col else column, m, rfl, ?_⟩
      split_ifs with hlt
      · exact Or.inl (List.mem_cons_self _ _)
      · rcases hval with ⟨n, hn⟩ | ⟨rfl, -⟩
        · exact Or.inr ⟨rfl, n, hn⟩
        · exact absurd (bot_lt_ofInt n₀) hlt
    · rw [if_neg hbr]
      obtain ⟨c, v, heq, hmem⟩ := ih (max alpha (EInt.ofInt m)) beta
        (if value < EInt.ofInt n₀ then col else column) (EInt.ofInt m)
        (fun c hc => hrows c (List.mem_cons_of_mem _ hc)) (Or.inl ⟨m, rfl⟩)
      refine ⟨c, v, heq, ?_⟩
      rcases hmem with hc | ⟨rfl, -⟩
      · exact Or.inl (List.mem_cons_of_mem _ hc)
      · split_ifs with hlt
        · exact Or.inl (List.mem_cons_self _ _)
        · rcases hval with ⟨n, hn⟩ | ⟨rfl, -⟩
          · exact Or.inr ⟨rfl, n, hn⟩
          · exact absurd (bot_lt_ofInt n₀) hlt

theorem minStep_some
    (f : Board → EInt → EInt → Option (Option Nat × EInt)) (board : Board)
    (hf : ∀ b a bt, ∃ c n, f b a bt = some (c, EInt.ofInt n)) :
    ∀ (l : List Nat) (alpha beta : EInt) (column : Nat) (value : EInt),
    (∀ col ∈ l, is_valid_location board col = true) →
    ((∃ n, value = EInt.ofInt n) ∨ (value = ⊤ ∧ l ≠ [])) →
    ∃ c v, minStep f board l alpha beta column value = some (some c, EInt.ofInt v) ∧
      (c ∈ l ∨ (c = column ∧ ∃ n, value = EInt.ofInt n)) := by
  intro l
  induction l with
  | nil =>
    intro alpha beta column value _ hval
    rcases hval with ⟨n, rfl⟩ | ⟨_, hne⟩
    · exact ⟨column, n, rfl, Or.inr ⟨rfl, n, rfl⟩⟩
    · exact absurd rfl hne
  | cons col rest ih =>
    intro alpha beta column value hrows hval
    obtain ⟨row, hrow⟩ := get_next_open_row_isSome (hrows col (List.mem_cons_self _ _))
    obtain ⟨c₀, n₀, hf₀⟩ := hf (setCell board row col PLAYER_PIECE) alpha beta
    have hval' : ∃ m, (if EInt.ofInt n₀ < value then EInt.ofInt n₀ else value) = EInt.ofInt m := by
      rcases hval with ⟨n, rfl⟩ | ⟨rfl, -⟩
      · split_ifs <;> exact ⟨_, rfl⟩
      · rw [if_pos (ofInt_lt_top n₀)]; exact ⟨n₀, rfl⟩
    obtain ⟨m, hm⟩ := hval'
    simp only [minStep, hrow, hf₀, hm]
    by_cases hbr : min beta (EInt.ofInt m) ≤ alpha
    · rw [if_pos hbr]
      refine ⟨if EInt.ofInt n₀ < value then col else column, m, rfl, ?_⟩
      split_ifs with hlt
      · exact Or.inl (List.mem_cons_self _ _)
      · rcases hval with ⟨n, hn⟩ | ⟨rfl, -⟩
        · exact Or.inr ⟨rfl, n, hn⟩
        · exact absurd (ofInt_lt_top n₀) hlt
    · rw [if_neg hbr]
      obtain ⟨c, v, heq, hmem⟩ := ih alpha (min beta (EInt.ofInt m))
        (if EInt.ofInt n₀ < value then col else column) (EInt.ofInt m)
        (fun c hc => hrows c (List.mem_cons_of_mem _ hc)) (Or.inl ⟨m, rfl⟩)
      refine ⟨c, v, heq, ?_⟩
      rcases hmem with hc | ⟨rfl, -⟩
      · exact Or.inl (List.mem_cons_of_mem _ hc)
      · split_ifs with hlt
        · exact Or.inl (List.mem_cons_self _ _)
        · rcases hval with ⟨n, hn⟩ | ⟨rfl, -⟩
          · exact Or.inr ⟨rfl, n, hn⟩
          · exact absurd (ofInt_lt_top n₀) hlt

theorem terminalResult_ofInt (board : Board) :
    ∃ n, terminalResult board = (none, EInt.ofInt n) := by
  rw [terminalResult]
  split_ifs <;> exact ⟨_, rfl⟩

/-- The search never raises: for every board, depth, window and flag it
returns an answer, and the returned score is a (finite) integer. -/
theorem minimax_some (ch : List Nat → Nat) :
    ∀ (depth : Nat) (board : Board) (alpha beta : EInt) (maximizing : Bool),
    ∃ c n, minimax ch board depth alpha beta maximizing = some (c, EInt.ofInt n) := by
  intro depth
  induction depth with
  | zero =>
    intro board alpha beta maximizing
    rw [minimax]
    split_ifs with ht
    · obtain ⟨n, hn⟩ := terminalResult_ofInt board
      exact ⟨none, n, by rw [hn]⟩
    · exact ⟨none, _, rfl⟩
  | succ d ih =>
    intro board alpha beta maximizing
    rw [minimax]
    simp only
    split_ifs with ht hempty hmax
    · obtain ⟨n, hn⟩ := terminalResult_ofInt board
      exact ⟨none, n, by rw [hn]⟩
    · exact absurd (List.isEmpty_iff.mp hempty)
        (valid_ne_nil_of_not_terminal (by simpa using ht))
    · obtain ⟨c, v, heq, -⟩ := maxStep_some _ board (fun b a bt => ih b a bt false)
        (get_valid_locations board) alpha beta (ch (get_valid_locations board)) ⊥
        (fun col hc => is_valid_of_mem_valid hc)
        (Or.inr ⟨rfl, valid_ne_nil_of_not_terminal (by simpa using ht)⟩)
      exact ⟨some c, v, heq⟩
    · obtain ⟨c, v, heq, -⟩ := minStep_some _ board (fun b a bt => ih b a bt true)
        (get_valid_locations board) alpha beta (ch (get_valid_locations board)) ⊤
        (fun col hc => is_valid_of_mem_valid hc)
        (Or.inr ⟨rfl, valid_ne_nil_of_not_terminal (by simpa using ht)⟩)
      exact ⟨some c, v, heq⟩

/-! ### The random tie-break seed never influences the result

In both loops the running `value` starts at `-inf` / `+inf`, and every
score returned by a recursive call is a finite integer, so the very first
scanned column strictly improves on `value` and overwrites the seeded
column.  Hence the result of `minimax` does not depend on the oracle. -/

theorem ofInt_ne_bot (n : ℤ) : EInt.ofInt n ≠ (⊥ : EInt) := WithBot.coe_ne_bot

theorem ofInt_ne_top (n : ℤ) : EInt.ofInt n ≠ (⊤ : EInt) := (ofInt_lt_top n).ne

theorem maxStep_seed_irrelevant
    (f : Board → EInt → EInt → Option (Option Nat × EInt)) (board : Board)
    (hf : ∀ b a bt, ∃ c n, f b a bt = some (c, EInt.ofInt n))
    (l : List Nat) (hl : l ≠ []) (alpha beta : EInt) (c₁ c₂ : Nat)
    (hrows : ∀ col ∈ l, is_valid_location board col = true) :
    maxStep f board l alpha beta c₁ ⊥ = maxStep f board l alpha beta c₂ ⊥ := by
  match l, hl with
  | col :: rest, _ =>
    obtain ⟨row, hrow⟩ := get_next_open_row_isSome (hrows col (List.mem_cons_self _ _))
    obtain ⟨c₀, n₀, hf₀⟩ := hf (setCell board row col AI_PIECE) alpha beta
    simp only [maxStep, hrow, hf₀, if_pos (bot_lt_ofInt n₀)]

theorem minStep_seed_irrelevant
    (f : Board → EInt → EInt → Option (Option Nat × EInt)) (board : Board)
    (hf : ∀ b a bt, ∃ c n, f b a bt = some (c, EInt.ofInt n))
    (l : List Nat) (hl : l ≠ []) (alpha beta : EInt) (c₁ c₂ : Nat)
    (hrows : ∀ col ∈ l, is_valid_location board col = true) :
    minStep f board l alpha beta c₁ ⊤ = minStep f board l alpha beta c₂ ⊤ := by
  match l, hl with
  | col :: rest, _ =>
    obtain ⟨row, hrow⟩ := get_next_open_row_isSome (hrows col (List.mem_cons_self _ _))
    obtain ⟨c₀, n₀, hf₀⟩ := hf (setCell board row col PLAYER_PIECE) alpha beta
    simp only [minStep, hrow, hf₀, if_pos (ofInt_lt_top n₀)]

theorem minimax_choice_irrelevant (ch₁ ch₂ : List Nat → Nat) :
    ∀ (depth : Nat) (board : Board) (alpha beta : EInt) (maximizing : Bool),
    minimax ch₁ board depth alpha beta maximizing =
      minimax ch₂ board depth alpha beta maximizing := by
  intro depth
  induction depth with
  | zero => intro board alpha beta m; rfl
  | succ d ih =>
    intro board alpha beta m
    rw [minimax, minimax]
    simp only
    split_ifs with ht hempty hmax
    · rfl
    · rfl
    · have hfe : (fun b a bt => minimax ch₁ b d a bt false) =
          (fun b a bt => minimax ch₂ b d a bt false) := by
        funext b a bt; exact ih b a bt false
      rw [hfe]
      exact maxStep_seed_irrelevant _ board (fun b a bt => minimax_some ch₂ d b a bt false)
        _ (by simpa using hempty) alpha beta _ _
        (fun col hc => is_valid_of_mem_valid hc)
    · have hfe : (fun b a bt => minimax ch₁ b d a bt true) =
          (fun b a bt => minimax ch₂ b d a bt true) := by
        funext b a bt; exact ih b a bt true
      rw [hfe]
      exact minStep_seed_irrelevant _ board (fun b a bt => minimax_some ch₂ d b a bt true)
        _ (by simpa using hempty) alpha beta _ _
        (fun col hc => is_valid_of_mem_valid hc)

/-! ### Terminal-leaf behaviour -/

/-- Whatever the depth, a terminal board is answered by the terminal
branch: the terminal check takes precedence over the depth-limit check. -/
theorem minimax_terminal_eq (ch : List Nat → Nat) (board : Board) (depth : Nat)
    (alpha beta : EInt) (m : Bool) (h : is_terminal_node board = true) :
    minimax ch board depth alpha beta m = some (terminalResult board) := by
  cases depth <;> rw [minimax] <;> simp [h]

theorem terminalResult_eq (board : Board) :
    terminalResult board = (none, EInt.ofInt
      (if is_winning_move board AI_PIECE = true then 100000000000000
       else if is_winning_move board PLAYER_PIECE = true then -100000000000000
       else 0)) := by
  rw [terminalResult]
  split_ifs <;> rfl

/-- An empty list of valid columns makes the board terminal. -/
theorem terminal_of_no_valid {board : Board} (h : get_valid_locations board = []) :
    is_terminal_node board = true := by
  rw [is_terminal_node, h]
  simp

/-! ### The unpruned reference search

`minimaxNP` follows the spec's "plain minimax search without alpha-beta
pruning": same leaves, same ascending scan of valid columns, but every
child is evaluated and the node value is the plain max/min of the child
scores.  It returns the score only (the claim compares scores). -/

def listMaxD : List Int → Int
  | [] => 0
  | [x] => x
  | x :: y :: ys => max x (listMaxD (y :: ys))

def listMinD : List Int → Int
  | [] => 0
  | [x] => x
  | x :: y :: ys => min x (listMinD (y :: ys))

/-- Score of the terminal branch, as a plain integer. -/
def terminalScore (board : Board) : Int :=
  if is_winning_move board AI_PIECE then 100000000000000
  else if is_winning_move board PLAYER_PIECE then -100000000000000
  else 0

def minimaxNP : Board → Nat → Bool → Int
  | board, 0, _ =>
    if is_terminal_node board then terminalScore board
    else score_position board AI_PIECE
  | board, depth + 1, maximizing =>
    if is_terminal_node board then terminalScore board
    else
      let scores := (get_valid_locations board).map fun col =>
        match get_next_open_row board col with
        | some row =>
          minimaxNP (setCell board row col (if maximizing then AI_PIECE else PLAYER_PIECE))
            depth (!maximizing)
        | none => 0
      if maximizing then listMaxD scores else listMinD scores

/-- The score the unpruned search assigns to dropping in `col`. -/
def npChild (board : Board) (depth : Nat) (maximizing : Bool) (col : Nat) : Int :=
  match get_next_open_row board col with
  | some row =>
    minimaxNP (setCell board row col (if maximizing then AI_PIECE else PLAYER_PIECE))
      depth (!maximizing)
  | none => 0

theorem terminalResult_score (board : Board) :
    terminalResult board = (none, EInt.ofInt (terminalScore board)) := by
  rw [terminalResult, terminalScore]
  split_ifs <;> rfl

theorem minimaxNP_succ (board : Board) (depth : Nat) (maximizing : Bool)
    (h : is_terminal_node board = false) :
    minimaxNP board (depth + 1) maximizing =
      (if maximizing then listMaxD else listMinD)
        ((get_valid_locations board).map fun col => npChild board depth maximizing col) := by
  cases maximizing <;> (rw [minimaxNP]; simp [h, npChild])

/-- Fold of the child scores of `l` into `EInt`, maxing from `⊥`. -/
def bestOf (g : Nat → Int) : List Nat → EInt
  | [] => ⊥
  | c :: rest => max (EInt.ofInt (g c)) (bestOf g rest)

/-- Fold of the child scores of `l` into `EInt`, minning from `⊤`. -/
def worstOf (g : Nat → Int) : List Nat → EInt
  | [] => ⊤
  | c :: rest => min (EInt.ofInt (g c)) (worstOf g rest)

theorem bestOf_eq (g : Nat → Int) :
    ∀ (l : List Nat), l ≠ [] → bestOf g l = EInt.ofInt (listMaxD (l.map g)) := by
  intro l
  induction l with
  | nil => intro h; exact absurd rfl h
  | cons c rest ih =>
    intro _
    rcases rest with _ | ⟨c', rest'⟩
    · simp [bestOf, listMaxD, max_eq_left bot_le]
    · rw [bestOf, ih (List.cons_ne_nil _ _), max_ofInt]
      congr 1

theorem worstOf_eq (g : Nat → Int) :
    ∀ (l : List Nat), l ≠ [] → worstOf g l = EInt.ofInt (listMinD (l.map g)) := by
  intro l
  induction l with
  | nil => intro h; exact absurd rfl h
  | cons c rest ih =>
    intro _
    rcases rest with _ | ⟨c', rest'⟩
    · simp [worstOf, listMinD, min_eq_left le_top]
    · rw [worstOf, ih (List.cons_ne_nil _ _), min_ofInt]
      congr 1

example : minimaxNP emptyBoard 1 true = 3 := by decide
example : minimaxNP emptyBoard 2 true = 3 := by decide
example : minimaxNP emptyBoard 1 false = 0 := by decide

-- On the empty board the search returns the center column at shallow
-- depths (checked here for depths 1 and 2).
example : minimax chFirst emptyBoard 1 ⊥ ⊤ true = some (some 3, EInt.ofInt 3) := by decide
example : minimax chFirst emptyBoard 2 ⊥ ⊤ true = some (some 3, EInt.ofInt 3) := by decide

/-! ### Alpha-beta pruning never changes the score

The classic fail-soft invariant: a node searched with window
`(alpha, beta)`, `alpha < beta`, returns a score `r` with
`min v beta ≤ r ≤ max v alpha` where `v` is the unpruned value of the
node.  With the full window this forces `r = v`. -/

theorem maxStep_bounds
    (f : Board → EInt → EInt → Option (Option Nat × EInt)) (board : Board)
    (g : Nat → Int) (alpha0 beta : EInt) :
    ∀ (l : List Nat) (alpha : EInt) (column : Nat) (value : EInt),
    (∀ col ∈ l, ∀ row, get_next_open_row board col = some row →
       ∀ a : EInt, a < beta →
       ∃ c n, f (setCell board row col AI_PIECE) a beta = some (c, EInt.ofInt n) ∧
         min (EInt.ofInt (g col)) beta ≤ EInt.ofInt n ∧
         EInt.ofInt n ≤ max (EInt.ofInt (g col)) a) →
    (∀ col ∈ l, is_valid_location board col = true) →
    ((∃ n, value = EInt.ofInt n) ∨ (value = ⊥ ∧ l ≠ [])) →
    alpha = max alpha0 value →
    alpha < beta →
    ∃ c v, maxStep f board l alpha beta column value = some (some c, EInt.ofInt v) ∧
      min (max value (bestOf g l)) beta ≤ EInt.ofInt v ∧
      EInt.ofInt v ≤ max (max value (bestOf g l)) alpha0 := by
  intro l
  induction l with
  | nil =>
    intro alpha column value _ _ hval _ _
    rcases hval with ⟨n, rfl⟩ | ⟨_, hne⟩
    · refine ⟨column, n, rfl, ?_, ?_⟩
      · rw [bestOf, max_eq_left bot_le]
        exact min_le_left _ _
      · rw [bestOf, max_eq_left bot_le]
        exact le_max_left _ _
    · exact absurd rfl hne
  | cons col rest ih =>
    intro alpha column value hf hrows hval halpha hab
    obtain ⟨row, hrow⟩ := get_next_open_row_isSome (hrows col (List.mem_cons_self _ _))
    obtain ⟨c₀, n₀, hf₀, hlo, hhi⟩ := hf col (List.mem_cons_self _ _) row hrow alpha hab
    have hm : ∃ m, max value (EInt.ofInt n₀) = EInt.ofInt m := by
      rcases hval with ⟨k, rfl⟩ | ⟨rfl, -⟩
      · exact ⟨max k n₀, max_ofInt k n₀⟩
      · exact ⟨n₀, max_eq_right bot_le⟩
    obtain ⟨m, hm⟩ := hm
    have hbest : bestOf g (col :: rest) = max (EInt.ofInt (g col)) (bestOf g rest) := rfl
    simp only [maxStep, hrow, hf₀, ite_lt_eq_max]
    by_cases hbr : beta ≤ max alpha (max value (EInt.ofInt n₀))
    · rw [if_pos hbr]
      have hVb : beta ≤ max value (EInt.ofInt n₀) := by
        by_contra hc
        push_neg at hc
        exact absurd hbr (not_le.mpr (max_lt hab hc))
      refine ⟨_, m, by rw [hm], ?_, ?_⟩
      · rw [← hm]
        exact le_trans (min_le_right _ _) hVb
      · rw [← hm]
        have h1 : value ≤ max (max value (bestOf g (col :: rest))) alpha0 :=
          le_trans (le_max_left _ _) (le_max_left _ _)
        have hg : EInt.ofInt (g col) ≤ max (max value (bestOf g (col :: rest))) alpha0 := by
          refine le_trans ?_ (le_max_left _ _)
          exact le_trans (by rw [hbest]; exact le_max_left _ _) (le_max_right _ _)
        have h2 : EInt.ofInt n₀ ≤ max (max value (bestOf g (col :: rest))) alpha0 := by
          refine le_trans hhi ?_
          rw [halpha]
          exact max_le hg (max_le (le_max_right _ _) h1)
        exact max_le h1 h2
    · rw [if_neg hbr]
      have hab' : max alpha (max value (EInt.ofInt n₀)) < beta := not_le.mp hbr
      have halpha' : max alpha (max value (EInt.ofInt n₀)) =
          max alpha0 (max value (EInt.ofInt n₀)) := by
        rw [halpha, max_assoc, ← max_assoc value value _, max_self]
      rw [halpha']
      obtain ⟨cR, vR, heqR, hloR, hhiR⟩ := ih (max alpha0 (max value (EInt.ofInt n₀)))
        (if value < EInt.ofInt n₀ then col else column) (max value (EInt.ofInt n₀))
        (fun c hc => hf c (List.mem_cons_of_mem _ hc))
        (fun c hc => hrows c (List.mem_cons_of_mem _ hc))
        (Or.inl ⟨m, hm⟩) rfl (by rw [← halpha']; exact hab')
      refine ⟨cR, vR, heqR, ?_, ?_⟩
      · refine le_trans ?_ hloR
        refine le_min ?_ (min_le_right _ _)
        rcases le_total (EInt.ofInt (g col)) beta with hgb | hbg
        · have hgn : EInt.ofInt (g col) ≤ EInt.ofInt n₀ := by
            rw [← min_eq_left hgb]; exact hlo
          refine le_trans (min_le_left _ _) ?_
          rw [hbest]
          refine max_le (le_trans (le_max_left _ _) (le_max_left _ _)) (max_le ?_ ?_)
          · exact le_trans (le_trans hgn (le_max_right _ _)) (le_max_left _ _)
          · exact le_max_right _ _
        · have hbn : beta ≤ EInt.ofInt n₀ := by
            rw [← min_eq_right hbg]; exact hlo
          refine le_trans (min_le_right _ _) ?_
          exact le_trans (le_trans hbn (le_max_right _ _)) (le_max_left _ _)
      · refine le_trans hhiR ?_
        have h1 : value ≤ max (max value (bestOf g (col :: rest))) alpha0 :=
          le_trans (le_max_left _ _) (le_max_left _ _)
        have hg : EInt.ofInt (g col) ≤ max (max value (bestOf g (col :: rest))) alpha0 := by
          refine le_trans ?_ (le_max_left _ _)
          exact le_trans (by rw [hbest]; exact le_max_left _ _) (le_max_right _ _)
        have h2 : EInt.ofInt n₀ ≤ max (max value (bestOf g (col :: rest))) alpha0 := by
          refine le_trans hhi ?_
          rw [halpha]
          exact max_le hg (max_le (le_max_right _ _) h1)
        have h3 : bestOf g rest ≤ max (max value (bestOf g (col :: rest))) alpha0 := by
          refine le_trans ?_ (le_max_left _ _)
          exact le_trans (by rw [hbest]; exact le_max_right _ _) (le_max_right _ _)
        exact max_le (max_le (max_le h1 h2) h3) (le_max_right _ _)

theorem minStep_bounds
    (f : Board → EInt → EInt → Option (Option Nat × EInt)) (board : Board)
    (g : Nat → Int) (beta0 alpha : EInt) :
    ∀ (l : List Nat) (beta : EInt) (column : Nat) (value : EInt),
    (∀ col ∈ l, ∀ row, get_next_open_row board col = some row →
       ∀ b : EInt, alpha < b →
       ∃ c n, f (setCell board row col PLAYER_PIECE) alpha b = some (c, EInt.ofInt n) ∧
         min (EInt.ofInt (g col)) b ≤ EInt.ofInt n ∧
         EInt.ofInt n ≤ max (EInt.ofInt (g col)) alpha) →
    (∀ col ∈ l, is_valid_location board col = true) →
    ((∃ n, value = EInt.ofInt n) ∨ (value = ⊤ ∧ l ≠ [])) →
    beta = min beta0 value →
    alpha < beta →
    ∃ c v, minStep f board l alpha beta column value = some (some c, EInt.ofInt v) ∧
      min (min value (worstOf g l)) beta0 ≤ EInt.ofInt v ∧
      EInt.ofInt v ≤ max (min value (worstOf g l)) alpha := by
  intro l
  induction l with
  | nil =>
    intro beta column value _ _ hval _ _
    rcases hval with ⟨n, rfl⟩ | ⟨_, hne⟩
    · refine ⟨column, n, rfl, ?_, ?_⟩
      · rw [worstOf, min_eq_left le_top]
        exact min_le_left _ _
      · rw [worstOf, min_eq_left le_top]
        exact le_max_left _ _
    · exact absurd rfl hne
  | cons col rest ih =>
    intro beta column value hf hrows hval hbeta hab
    obtain ⟨row, hrow⟩ := get_next_open_row_isSome (hrows col (List.mem_cons_self _ _))
    obtain ⟨c₀, n₀, hf₀, hlo, hhi⟩ := hf col (List.mem_cons_self _ _) row hrow beta hab
    have hm : ∃ m, min value (EInt.ofInt n₀) = EInt.ofInt m := by
      rcases hval with ⟨k, rfl⟩ | ⟨rfl, -⟩
      · exact ⟨min k n₀, min_ofInt k n₀⟩
      · exact ⟨n₀, min_eq_right le_top⟩
    obtain ⟨m, hm⟩ := hm
    have hworst : worstOf g (col :: rest) = min (EInt.ofInt (g col)) (worstOf g rest) := rfl
    -- `min W beta0 ≤ n₀` is used by both branches
    have hWn : min (min value (worstOf g (col :: rest))) beta0 ≤ EInt.ofInt n₀ := by
      refine le_trans ?_ hlo
      refine le_min ?_ ?_
      · refine le_trans (min_le_left _ _) ?_
        rw [hworst]
        exact le_trans (min_le_right _ _) (min_le_left _ _)
      · rw [hbeta]
        refine le_min (min_le_right _ _) ?_
        exact le_trans (min_le_left _ _) (min_le_left _ _)
    have hWv : min (min value (worstOf g (col :: rest))) beta0 ≤ value :=
      le_trans (min_le_left _ _) (min_le_left _ _)
    simp only [minStep, hrow, hf₀, ite_lt_eq_min]
    by_cases hbr : min beta (min value (EInt.ofInt n₀)) ≤ alpha
    · rw [if_pos hbr]
      have hVa : min value (EInt.ofInt n₀) ≤ alpha := by
        by_contra hc
        push_neg at hc
        exact absurd hbr (not_le.mpr (lt_min hab hc))
      refine ⟨_, m, by rw [hm], ?_, ?_⟩
      · rw [← hm]
        exact le_min hWv hWn
      · rw [← hm]
        exact le_trans hVa (le_max_right _ _)
    · rw [if_neg hbr]
      have hab' : alpha < min beta (min value (EInt.ofInt n₀)) := not_le.mp hbr
      have hbeta' : min beta (min value (EInt.ofInt n₀)) =
          min beta0 (min value (EInt.ofInt n₀)) := by
        rw [hbeta, min_assoc, ← min_assoc value value _, min_self]
      rw [hbeta']
      obtain ⟨cR, vR, heqR, hloR, hhiR⟩ := ih (min beta0 (min value (EInt.ofInt n₀)))
        (if EInt.ofInt n₀ < value then col else column) (min value (EInt.ofInt n₀))
        (fun c hc => hf c (List.mem_cons_of_mem _ hc))
        (fun c hc => hrows c (List.mem_cons_of_mem _ hc))
        (Or.inl ⟨m, hm⟩) rfl (by rw [← hbeta']; exact hab')
      refine ⟨cR, vR, heqR, ?_, ?_⟩
      · have hWr : min (min value (worstOf g (col :: rest))) beta0 ≤ worstOf g rest := by
          refine le_trans (min_le_left _ _) ?_
          rw [hworst]
          exact le_trans (min_le_right _ _) (min_le_right _ _)
        have hA1 : min (min value (worstOf g (col :: rest))) beta0 ≤
            min value (EInt.ofInt n₀) := le_min hWv hWn
        have hA2 : min (min value (worstOf g (col :: rest))) beta0 ≤
            min (min value (EInt.ofInt n₀)) (worstOf g rest) := le_min hA1 hWr
        exact le_trans (le_min hA2 (min_le_right _ _)) hloR
      · refine le_trans hhiR ?_
        refine max_le ?_ (le_max_right _ _)
        rcases le_total alpha (EInt.ofInt (g col)) with hag | hga
        · have hng : EInt.ofInt n₀ ≤ EInt.ofInt (g col) := by
            rw [← max_eq_left hag]; exact hhi
          refine le_trans ?_ (le_max_left _ _)
          refine le_min (le_trans (min_le_left _ _) (min_le_left _ _)) ?_
          rw [hworst]
          exact le_min (le_trans (le_trans (min_le_left _ _) (min_le_right _ _)) hng)
            (min_le_right _ _)
        · have hna : EInt.ofInt n₀ ≤ alpha := by
            rw [← max_eq_right hga]; exact hhi
          refine le_trans ?_ (le_max_right _ _)
          exact le_trans (min_le_left _ _) (le_trans (min_le_right _ _) hna)

theorem minimax_bounds (ch : List Nat → Nat) :
    ∀ (depth : Nat) (board : Board) (maximizing : Bool) (alpha beta : EInt),
    alpha < beta →
    ∃ c n, minimax ch board depth alpha beta maximizing = some (c, EInt.ofInt n) ∧
      min (EInt.ofInt (minimaxNP board depth maximizing)) beta ≤ EInt.ofInt n ∧
      EInt.ofInt n ≤ max (EInt.ofInt (minimaxNP board depth maximizing)) alpha := by
  intro depth
  induction depth with
  | zero =>
    intro board m alpha beta _
    rw [minimax, minimaxNP]
    split_ifs with ht
    · exact ⟨none, terminalScore board, by rw [terminalResult_score],
        min_le_left _ _, le_max_left _ _⟩
    · exact ⟨none, _, rfl, min_le_left _ _, le_max_left _ _⟩
  | succ d ih =>
    intro board m alpha beta hab
    rw [minimax]
    simp only
    split_ifs with ht hempty hmax
    · refine ⟨none, terminalScore board, by rw [terminalResult_score], ?_, ?_⟩
      · rw [minimaxNP, if_pos ht]
        exact min_le_left _ _
      · rw [minimaxNP, if_pos ht]
        exact le_max_left _ _
    · exact absurd (List.isEmpty_iff.mp hempty)
        (valid_ne_nil_of_not_terminal (by simpa using ht))
    · -- maximizing node
      subst hmax
      have hterm : is_terminal_node board = false := by simpa using ht
      have hne : get_valid_locations board ≠ [] := valid_ne_nil_of_not_terminal hterm
      obtain ⟨c, n, heq, hlo, hhi⟩ := maxStep_bounds
        (fun b a bt => minimax ch b d a bt false) board (npChild board d true)
        alpha beta (get_valid_locations board) alpha (ch (get_valid_locations board)) ⊥
        (by
          intro col hcol row hrow a haβ
          obtain ⟨c', n', heq', hlo', hhi'⟩ := ih (setCell board row col AI_PIECE) false a beta haβ
          have hg : npChild board d true col =
              minimaxNP (setCell board row col AI_PIECE) d false := by
            simp [npChild, hrow]
          rw [hg]
          exact ⟨c', n', heq', hlo', hhi'⟩)
        (fun col hc => is_valid_of_mem_valid hc)
        (Or.inr ⟨rfl, hne⟩) (max_eq_left bot_le).symm hab
      rw [max_eq_right bot_le, bestOf_eq _ _ hne] at hlo hhi
      have hNP : minimaxNP board (d + 1) true =
          listMaxD ((get_valid_locations board).map (npChild board d true)) := by
        rw [minimaxNP_succ board d true hterm]
        rfl
      rw [← hNP] at hlo hhi
      exact ⟨some c, n, heq, hlo, hhi⟩
    · -- minimizing node
      have hm : m = false := by
        cases m
        · rfl
        · exact absurd rfl hmax
      subst hm
      have hterm : is_terminal_node board = false := by simpa using ht
      have hne : get_valid_locations board ≠ [] := valid_ne_nil_of_not_terminal hterm
      obtain ⟨c, n, heq, hlo, hhi⟩ := minStep_bounds
        (fun b a bt => minimax ch b d a bt true) board (npChild board d false)
        beta alpha (get_valid_locations board) beta (ch (get_valid_locations board)) ⊤
        (by
          intro col hcol row hrow b hab'
          obtain ⟨c', n', heq', hlo', hhi'⟩ := ih (setCell board row col PLAYER_PIECE) true alpha b hab'
          have hg : npChild board d false col =
              minimaxNP (setCell board row col PLAYER_PIECE) d true := by
            simp [npChild, hrow]
          rw [hg]
          exact ⟨c', n', heq', hlo', hhi'⟩)
        (fun col hc => is_valid_of_mem_valid hc)
        (Or.inr ⟨rfl, hne⟩) (min_eq_left le_top).symm hab
      rw [min_eq_right le_top, worstOf_eq _ _ hne] at hlo hhi
      have hNP : minimaxNP board (d + 1) false =
          listMinD ((get_valid_locations board).map (npChild board d false)) := by
        rw [minimaxNP_succ board d false hterm]
        rfl
      rw [← hNP] at hlo hhi
      exact ⟨some c, n, heq, hlo, hhi⟩

/-- C1: for every board, depth and maximizing flag, `minimax` invoked with
the full window (`alpha = -∞`, `beta = +∞`) returns the same score as the
plain minimax search `minimaxNP` without alpha-beta pruning (ascending
scan, strict improvement): pruning may change which nodes are visited but
never the returned score.  (`ch` is the arbitrary `random.choice` oracle;
by `minimax_choice_irrelevant` it does not affect the result.) -/
theorem minimax_full_window_eq_unpruned (ch : List Nat → Nat)
    (board : Board) (depth : Nat) (maximizing : Bool) :
    ∃ c, minimax ch board depth ⊥ ⊤ maximizing =
      some (c, EInt.ofInt (minimaxNP board depth maximizing)) := by
  obtain ⟨c, n, heq, hlo, hhi⟩ := minimax_bounds ch depth board maximizing ⊥ ⊤ bot_lt_top
  rw [min_eq_left le_top] at hlo
  rw [max_eq_left bot_le] at hhi
  have : EInt.ofInt n = EInt.ofInt (minimaxNP board depth maximizing) :=
    le_antisymm hhi hlo
  rw [this] at heq
  exact ⟨c, heq⟩

/-- C5 (counterexample): a concrete input on which the claimed run-to-run
variability fails.  On the empty board at depth 1, minimizing, full
window, all seven columns tie for the best score 0, yet two runs whose
`random.choice` outcomes differ (`chFirst` seeds column 0, `chLast` seeds
column 6) both return column 0: the seeded column is overwritten on the
first loop iteration, since a finite score strictly improves on `+∞`. -/
theorem minimax_tie_runs_equal :
    minimax chFirst emptyBoard 1 ⊥ ⊤ false = some (some 0, EInt.ofInt 0) ∧
    minimax chLast emptyBoard 1 ⊥ ⊤ false = some (some 0, EInt.ofInt 0) ∧
    chFirst (get_valid_locations emptyBoard) ≠
      chLast (get_valid_locations emptyBoard) :=
  ⟨by decide, by decide, by decide⟩

/-- C5 (amended): the randomly seeded best-so-far column never survives
the first loop iteration (any finite recursive score strictly improves on
the `-∞`/`+∞` initialization), so `minimax` is a deterministic function of
`(board, depth, alpha, beta, maximizing)`: every run — any oracle `ch`
standing for `random.choice` — returns the same column and score as the
run seeded with the first valid column, tie-breaking on the first
(lowest-index) column attaining the best score. -/
theorem minimax_eq_firstSeed_run (ch : List Nat → Nat) (board : Board)
    (depth : Nat) (alpha beta : EInt) (maximizing : Bool) :
    minimax ch board depth alpha beta maximizing =
      minimax chFirst board depth alpha beta maximizing :=
  minimax_choice_irrelevant ch chFirst depth board alpha beta maximizing

/-! ### Terminal boards (C2, C4) -/

/-- A full board with an AI four-in-a-row, reachable top row occupied. -/
def fullWinBoard : Board :=
  [[2, 2, 2, 2, 1, 1, 1],
   [1, 1, 1, 2, 2, 2, 1],
   [2, 2, 2, 1, 1, 1, 2],
   [1, 1, 1, 2, 2, 2, 1],
   [2, 2, 2, 1, 1, 1, 2],
   [1, 1, 1, 2, 2, 2, 1]]

/-- A fully occupied board with no four-in-a-row for either side,
reachable by alternating play. -/
def drawBoard : Board :=
  [[2, 1, 2, 2, 1, 1, 1],
   [2, 1, 1, 1, 2, 2, 2],
   [1, 2, 2, 1, 1, 1, 2],
   [2, 1, 2, 2, 2, 1, 1],
   [1, 2, 1, 1, 1, 2, 2],
   [2, 1, 2, 2, 1, 2, 1]]

/-- C2 (counterexample): a board with no valid columns and depth 1 > 0 on
which `minimax` returns score +1×10^14, not `(none, 0)`: the board is full
but the AI has four-in-a-row, so the claim's "no valid columns and
depth > 0 implies exactly `(none, 0)`" fails as stated. -/
theorem full_win_board_not_zero :
    get_valid_locations fullWinBoard = [] ∧
    minimax chFirst fullWinBoard 1 ⊥ ⊤ true =
      some (none, EInt.ofInt 100000000000000) ∧
    minimax chFirst fullWinBoard 1 ⊥ ⊤ true ≠ some (none, EInt.ofInt 0) := by
  refine ⟨by decide, by decide, by decide⟩

/-- C2 (amended): at every terminal board `minimax` returns column `none`
and score +1×10^14 if the AI has four-in-a-row, else −1×10^14 if the human
has four-in-a-row, else 0, at any depth and window; a board with no valid
columns and *no four-in-a-row for either side* yields exactly `(none, 0)`
at every depth (in particular every depth > 0), with no attempt to pick
among the empty set of columns; and a fully occupied board with no
four-in-a-row yields `(none, 0)` at any depth. -/
theorem minimax_terminal_spec (ch : List Nat → Nat) (board : Board)
    (depth : Nat) (alpha beta : EInt) (m : Bool) :
    (is_terminal_node board = true →
      minimax ch board depth alpha beta m = some (none, EInt.ofInt
        (if is_winning_move board AI_PIECE = true then 100000000000000
         else if is_winning_move board PLAYER_PIECE = true then -100000000000000
         else 0))) ∧
    (get_valid_locations board = [] →
     is_winning_move board AI_PIECE = false →
     is_winning_move board PLAYER_PIECE = false →
      minimax ch board depth alpha beta m = some (none, EInt.ofInt 0)) := by
  constructor
  · intro ht
    rw [minimax_terminal_eq ch board depth alpha beta m ht, terminalResult_eq]
  · intro hempty hA hP
    rw [minimax_terminal_eq ch board depth alpha beta m (terminal_of_no_valid hempty),
      terminalResult_eq, hA, hP]
    rfl

/-- Witness for `minimax_terminal_spec`: on the concrete full draw board
(no valid columns, no winner) the search returns `(none, 0)` at depth 3,
and on the full board with an AI win it returns the +1×10^14 leaf value. -/
theorem minimax_terminal_spec_witness :
    minimax chFirst drawBoard 3 ⊥ ⊤ true = some (none, EInt.ofInt 0) ∧
    minimax chFirst fullWinBoard 2 ⊥ ⊤ false =
      some (none, EInt.ofInt 100000000000000) := by
  constructor
  · exact (minimax_terminal_spec chFirst drawBoard 3 ⊥ ⊤ true).2
      (by decide) (by decide) (by decide)
  · have h := (minimax_terminal_spec chFirst fullWinBoard 2 ⊥ ⊤ false).1 (by decide)
    rw [h]
    decide

/-- C4: at depth 0 with the full window and `maximizing = true`, a
non-terminal board is scored exactly by the heuristic,
`(none, score_position board AI_PIECE)`; and a terminal board at depth 0
still yields the win/loss/draw score at any window and flag — the
terminal check takes precedence over the depth-limit check. -/
theorem minimax_depth_zero_spec (ch : List Nat → Nat) (board : Board) :
    (is_terminal_node board = false →
      minimax ch board 0 ⊥ ⊤ true =
        some (none, EInt.ofInt (score_position board AI_PIECE))) ∧
    (∀ (alpha beta : EInt) (m : Bool), is_terminal_node board = true →
      minimax ch board 0 alpha beta m = some (none, EInt.ofInt
        (if is_winning_move board AI_PIECE = true then 100000000000000
         else if is_winning_move board PLAYER_PIECE = true then -100000000000000
         else 0))) := by
  constructor
  · intro ht
    rw [minimax]
    simp [ht]
  · intro alpha beta m ht
    rw [minimax_terminal_eq ch board 0 alpha beta m ht, terminalResult_eq]

/-- Witness for `minimax_depth_zero_spec`: the empty board is non-terminal
and is scored 0 by the heuristic; the full AI-win board still yields the
win score at depth 0. -/
theorem minimax_depth_zero_spec_witness :
    minimax chFirst emptyBoard 0 ⊥ ⊤ true = some (none, EInt.ofInt 0) ∧
    minimax chFirst fullWinBoard 0 ⊥ ⊤ true =
      some (none, EInt.ofInt 100000000000000) := by
  constructor
  · have h := (minimax_depth_zero_spec chFirst emptyBoard).1 (by decide)
    rw [h]
    decide
  · have h := (minimax_depth_zero_spec chFirst fullWinBoard).2 ⊥ ⊤ true (by decide)
    rw [h]
    decide

/-! ### The window heuristic (C3) -/

/-- The other side, as computed at the top of `evaluate_window`. -/
def opponent (piece : Nat) : Nat :=
  if piece == PLAYER_PIECE then AI_PIECE else PLAYER_PIECE

/-- C3: over 4-cell windows drawn from `{Empty, side, opponent}`,
`evaluate_window` returns exactly one of `{100000, 50, 5, −4000, 0}`:
100000 for four of `side`; 50 for exactly three of `side` and one empty;
5 for exactly two of `side` and two empties; −4000 for exactly three of
the opponent and one empty; 0 in every other case.  The conditions are
mutually exclusive, so no window receives the sum of two table values. -/
theorem evaluate_window_classification (side : Nat)
    (hside : side = PLAYER_PIECE ∨ side = AI_PIECE) :
    ∀ a ∈ [EMPTY, side, opponent side], ∀ b ∈ [EMPTY, side, opponent side],
    ∀ c ∈ [EMPTY, side, opponent side], ∀ d ∈ [EMPTY, side, opponent side],
    evaluate_window [a, b, c, d] side ∈ ([100000, 50, 5, -4000, 0] : List Int) ∧
    ([a, b, c, d].count side = 4 → evaluate_window [a, b, c, d] side = 100000) ∧
    ([a, b, c, d].count side = 3 ∧ [a, b, c, d].count EMPTY = 1 →
      evaluate_window [a, b, c, d] side = 50) ∧
    ([a, b, c, d].count side = 2 ∧ [a, b, c, d].count EMPTY = 2 →
      evaluate_window [a, b, c, d] side = 5) ∧
    ([a, b, c, d].count (opponent side) = 3 ∧ [a, b, c, d].count EMPTY = 1 →
      evaluate_window [a, b, c, d] side = -4000) ∧
    (¬[a, b, c, d].count side = 4 →
     ¬([a, b, c, d].count side = 3 ∧ [a, b, c, d].count EMPTY = 1) →
     ¬([a, b, c, d].count side = 2 ∧ [a, b, c, d].count EMPTY = 2) →
     ¬([a, b, c, d].count (opponent side) = 3 ∧ [a, b, c, d].count EMPTY = 1) →
      evaluate_window [a, b, c, d] side = 0) := by
  rcases hside with rfl | rfl <;> decide

/-- Witness for `evaluate_window_classification` at `side = AI_PIECE` on
the window `[2, 2, 2, 0]` (three of side, one empty). -/
theorem evaluate_window_classification_witness :
    evaluate_window [2, 2, 2, 0] AI_PIECE ∈ ([100000, 50, 5, -4000, 0] : List Int) ∧
    ([2, 2, 2, 0].count AI_PIECE = 4 → evaluate_window [2, 2, 2, 0] AI_PIECE = 100000) ∧
    ([2, 2, 2, 0].count AI_PIECE = 3 ∧ [2, 2, 2, 0].count EMPTY = 1 →
      evaluate_window [2, 2, 2, 0] AI_PIECE = 50) ∧
    ([2, 2, 2, 0].count AI_PIECE = 2 ∧ [2, 2, 2, 0].count EMPTY = 2 →
      evaluate_window [2, 2, 2, 0] AI_PIECE = 5) ∧
    ([2, 2, 2, 0].count (opponent AI_PIECE) = 3 ∧ [2, 2, 2, 0].count EMPTY = 1 →
      evaluate_window [2, 2, 2, 0] AI_PIECE = -4000) ∧
    (¬[2, 2, 2, 0].count AI_PIECE = 4 →
     ¬([2, 2, 2, 0].count AI_PIECE = 3 ∧ [2, 2, 2, 0].count EMPTY = 1) →
     ¬([2, 2, 2, 0].count AI_PIECE = 2 ∧ [2, 2, 2, 0].count EMPTY = 2) →
     ¬([2, 2, 2, 0].count (opponent AI_PIECE) = 3 ∧ [2, 2, 2, 0].count EMPTY = 1) →
      evaluate_window [2, 2, 2, 0] AI_PIECE = 0) :=
  evaluate_window_classification AI_PIECE (Or.inr rfl)
    2 (by decide) 2 (by decide) 2 (by decide) 0 (by decide)

/-! ### No exceptions escape the search (C7) -/

/-- The board is a well-formed 6×7 grid. -/
def boardWF (board : Board) : Bool :=
  (board.length == ROW_COUNT) && board.all fun row => row.length == COLUMN_COUNT

/-- The gravity invariant of reachable boards: a cell holds a piece only
if every cell below it in the same column is non-empty. -/
def gravityOK (board : Board) : Bool :=
  (List.range COLUMN_COUNT).all fun c => (List.range (ROW_COUNT - 1)).all fun r =>
    (cell board (r + 1) c == EMPTY) || !(cell board r c == EMPTY)

/-- C7: on every reachable board (well-formed 6×7 grid satisfying the
gravity invariant) and for every depth, window and flag — and whatever the
`random.choice` oracle returns — `minimax` raises no exception: inside the
search `get_next_open_row` is only applied to valid columns (its `none`
fall-through is never used as an index) and `random.choice` is never
applied to an empty list, both of which would surface here as a `none`
result. -/
theorem minimax_no_exception (ch : List Nat → Nat) (board : Board)
    (depth : Nat) (alpha beta : EInt) (m : Bool)
    (hwf : boardWF board = true) (hgrav : gravityOK board = true) :
    (minimax ch board depth alpha beta m).isSome = true := by
  obtain ⟨c, n, h⟩ := minimax_some ch depth board alpha beta m
  rw [h]
  rfl

/-- Witness for `minimax_no_exception` on the empty board at depth 2. -/
theorem minimax_no_exception_witness :
    (minimax chFirst emptyBoard 2 ⊥ ⊤ true).isSome = true :=
  minimax_no_exception chFirst emptyBoard 2 ⊥ ⊤ true (by decide) (by decide)

/-! ### The returned column is always a valid column (C10) -/

/-- C10: on a non-terminal board at depth ≥ 1 (any window, flag and
oracle), the column `minimax` returns is a member of
`get_valid_locations board` — in particular it is never `none`, so the
shell's defensive re-check of the returned column cannot fail. -/
theorem minimax_column_mem_valid (ch : List Nat → Nat) (board : Board)
    (depth : Nat) (alpha beta : EInt) (m : Bool)
    (hterm : is_terminal_node board = false) (hdepth : 1 ≤ depth) :
    ∃ col v, minimax ch board depth alpha beta m = some (some col, EInt.ofInt v) ∧
      col ∈ get_valid_locations board := by
  obtain ⟨d, rfl⟩ : ∃ d, depth = d + 1 := ⟨depth - 1, by omega⟩
  have hne : get_valid_locations board ≠ [] := valid_ne_nil_of_not_terminal hterm
  rw [minimax]
  simp only
  rw [if_neg (by simp [hterm]), if_neg (by simpa [List.isEmpty_iff] using hne)]
  cases m with
  | true =>
    rw [if_pos rfl]
    obtain ⟨c, v, heq, hmem⟩ := maxStep_some _ board
      (fun b a bt => minimax_some ch d b a bt false)
      (get_valid_locations board) alpha beta (ch (get_valid_locations board)) ⊥
      (fun col hc => is_valid_of_mem_valid hc) (Or.inr ⟨rfl, hne⟩)
    refine ⟨c, v, heq, ?_⟩
    rcases hmem with h | ⟨-, n, hn⟩
    · exact h
    · exact absurd hn.symm (ofInt_ne_bot n)
  | false =>
    rw [if_neg (by simp)]
    obtain ⟨c, v, heq, hmem⟩ := minStep_some _ board
      (fun b a bt => minimax_some ch d b a bt true)
      (get_valid_locations board) alpha beta (ch (get_valid_locations board)) ⊤
      (fun col hc => is_valid_of_mem_valid hc) (Or.inr ⟨rfl, hne⟩)
    refine ⟨c, v, heq, ?_⟩
    rcases hmem with h | ⟨-, n, hn⟩
    · exact h
    · exact absurd hn.symm (ofInt_ne_top n)

/-- Witness for `minimax_column_mem_valid` on the empty board, depth 1. -/
theorem minimax_column_mem_valid_witness :
    ∃ col v, minimax chLast emptyBoard 1 ⊥ ⊤ true = some (some col, EInt.ofInt v) ∧
      col ∈ get_valid_locations emptyBoard :=
  minimax_column_mem_valid chLast emptyBoard 1 ⊥ ⊤ true (by decide) (by decide)

/-! ### Applying a move (C8) -/

theorem getD_set_self {α : Type} :
    ∀ (l : List α) (i : Nat) (x d : α), i < l.length → (l.set i x).getD i d = x
  | [], i, x, d, h => absurd h (by simp)
  | _ :: _, 0, _, _, _ => rfl
  | _ :: l, i + 1, x, d, h => getD_set_self l i x d (by simpa using h)

theorem getD_set_ne {α : Type} :
    ∀ (l : List α) (i j : Nat) (x d : α), i ≠ j → (l.set i x).getD j d = l.getD j d
  | [], _, _, _, _, _ => rfl
  | _ :: _, 0, 0, _, _, h => absurd rfl h
  | _ :: _, 0, _ + 1, _, _, _ => rfl
  | _ :: _, _ + 1, 0, _, _, _ => rfl
  | _ :: l, i + 1, j + 1, x, d, h => getD_set_ne l i j x d (by omega)

/-- A column with no empty cell at all. -/
def columnFull (board : Board) (col : Nat) : Bool :=
  (List.range ROW_COUNT).all fun r => !(cell board r col == EMPTY)

/-- Modelled from the spec: the repository has no standalone `applyMove` —
`minimax` inlines the drop as `get_next_open_row` followed by
`temp_board[row][col] = piece` on a fresh copy (core lines 149-152 and
172-175).  Per spec §4.1, `applyMove(board, col, side)` returns a new
board with one piece added at `nextOpenRow(board, col)`, and fails with an
`InvalidMove` condition (modelled as `none`) if the column is full. -/
def applyMove (board : Board) (col side : Nat) : Option Board :=
  match get_next_open_row board col with
  | none => none
  | some row => some (setCell board row col side)

theorem get_next_open_row_eq_none_iff (board : Board) (col : Nat) :
    get_next_open_row board col = none ↔ columnFull board col = true := by
  rw [get_next_open_row, columnFull, List.find?_eq_none, List.all_eq_true]
  constructor
  · intro h r hr
    simpa using h r hr
  · intro h r hr
    simpa using h r hr

theorem row_length_of_wf {board : Board} (hwf : boardWF board = true)
    {r : Nat} (hr : r < ROW_COUNT) : (board.getD r []).length = COLUMN_COUNT := by
  rw [boardWF, Bool.and_eq_true, beq_iff_eq, List.all_eq_true] at hwf
  obtain ⟨hlen, hrows⟩ := hwf
  have hr' : r < board.length := by omega
  rw [List.getD_eq_getElem board [] hr']
  exact beq_iff_eq.mp (hrows _ (List.getElem_mem hr'))

/-- C8: `applyMove` on a full column fails (`none`, never a silent no-op);
on a non-full column it returns a new board with exactly one piece added
at `nextOpenRow(board, col)`: that cell was empty and now holds `side`,
and every other cell is unchanged. -/
theorem applyMove_spec (board : Board) (col side : Nat)
    (hwf : boardWF board = true) (hcol : col < COLUMN_COUNT) :
    (columnFull board col = true → applyMove board col side = none) ∧
    (columnFull board col = false →
      ∃ row, get_next_open_row board col = some row ∧
        applyMove board col side = some (setCell board row col side) ∧
        cell board row col = EMPTY ∧
        cell (setCell board row col side) row col = side ∧
        ∀ r c, ¬(r = row ∧ c = col) →
          cell (setCell board row col side) r c = cell board r c) := by
  constructor
  · intro hfull
    rw [applyMove, (get_next_open_row_eq_none_iff board col).mpr hfull]
  · intro hnotfull
    have hne : get_next_open_row board col ≠ none := by
      intro h
      rw [(get_next_open_row_eq_none_iff board col).mp h] at hnotfull
      exact absurd hnotfull (by simp)
    obtain ⟨row, hrow⟩ := Option.ne_none_iff_exists'.mp hne
    have hrowlt : row < ROW_COUNT := by
      have := List.mem_of_find?_eq_some hrow
      simpa [List.mem_range] using this
    have hempty : cell board row col = EMPTY := by
      have := List.find?_some hrow
      simpa using this
    have hblen : board.length = ROW_COUNT := by
      rw [boardWF, Bool.and_eq_true, beq_iff_eq] at hwf
      exact hwf.1
    refine ⟨row, hrow, by rw [applyMove, hrow], hempty, ?_, ?_⟩
    · rw [cell, setCell, getD_set_self _ _ _ _ (by omega), getD_set_self]
      rw [row_length_of_wf hwf hrowlt]
      exact hcol
    · intro r c hrc
      rcases eq_or_ne r row with rfl | hr
      · have hc : c ≠ col := fun hceq => hrc ⟨rfl, hceq⟩
        rw [cell, setCell, getD_set_self _ _ _ _ (by omega), getD_set_ne _ _ _ _ _ (fun h => hc h.symm)]
        rfl
      · rw [cell, setCell, getD_set_ne _ _ _ _ _ (fun h => hr h.symm)]
        rfl

/-- Witness for `applyMove_spec`: dropping in the full column 0 of the
draw board fails; dropping in column 3 of the empty board adds one piece
at row 0. -/
theorem applyMove_spec_witness :
    applyMove drawBoard 0 AI_PIECE = none ∧
    applyMove emptyBoard 3 AI_PIECE = some (setCell emptyBoard 0 3 AI_PIECE) := by
  constructor
  · exact (applyMove_spec drawBoard 0 AI_PIECE (by decide) (by decide)).1 (by decide)
  · obtain ⟨row, hrow, happly, -⟩ :=
      (applyMove_spec emptyBoard 3 AI_PIECE (by decide) (by decide)).2 (by decide)
    have hrow0 : row = 0 := by
      have h0 : get_next_open_row emptyBoard 3 = some 0 := by decide
      rw [h0] at hrow
      exact (Option.some_inj.mp hrow).symm
    rw [hrow0] at happly
    exact happly

/-! ### Copy-on-write: the search never mutates its input board (C9)

To make mutation observable in the embedding, boards live in an explicit
heap and are passed by reference: `board.copy()` allocates a fresh cell at
the end of the heap, and the assignment `temp_board[row][col] = piece`
mutates the heap at the temp reference only.  Each loop iteration re-reads
the caller's board through its reference, exactly as the Python loop reads
the live `board` object; if the recursive call mutated it, the parent
would observe the change here. -/

abbrev Heap := List Board

/-- Dereference a board. -/
def readRef (heap : Heap) (ref : Nat) : Board := heap.getD ref []

def maxStepH (f : Heap → Nat → EInt → EInt → Option ((Option Nat × EInt) × Heap)) :
    Heap → Nat → List Nat → EInt → EInt → Nat → EInt →
      Option ((Option Nat × EInt) × Heap)
  | heap, _, [], _, _, column, value => some ((some column, value), heap)
  | heap, ref, col :: rest, alpha, beta, column, value =>
    let board := readRef heap ref
    match get_next_open_row board col with
    | none => none
    | some row =>
      let tempRef := heap.length
      let heap1 := heap ++ [board]
      let heap2 := heap1.set tempRef (setCell board row col AI_PIECE)
      match f heap2 tempRef alpha beta with
      | none => none
      | some (res, heap3) =>
        let new_score := res.2
        let value' := if value < new_score then new_score else value
        let column' := if value < new_score then col else column
        let alpha' := max alpha value'
        if beta ≤ alpha' then some ((some column', value'), heap3)
        else maxStepH f heap3 ref rest alpha' beta column' value'

def minStepH (f : Heap → Nat → EInt → EInt → Option ((Option Nat × EInt) × Heap)) :
    Heap → Nat → List Nat → EInt → EInt → Nat → EInt →
      Option ((Option Nat × EInt) × Heap)
  | heap, _, [], _, _, column, value => some ((some column, value), heap)
  | heap, ref, col :: rest, alpha, beta, column, value =>
    let board := readRef heap ref
    match get_next_open_row board col with
    | none => none
    | some row =>
      let tempRef := heap.length
      let heap1 := heap ++ [board]
      let heap2 := heap1.set tempRef (setCell board row col PLAYER_PIECE)
      match f heap2 tempRef alpha beta with
      | none => none
      | some (res, heap3) =>
        let new_score := res.2
        let value' := if new_score < value then new_score else value
        let column' := if new_score < value then col else column
        let beta' := min beta value'
        if beta' ≤ alpha then some ((some column', value'), heap3)
        else minStepH f heap3 ref rest alpha beta' column' value'

/-- `minimax` in the heap model: the board argument is the reference
`ref`; the returned heap is the memory as the caller sees it after the
call. -/
def minimaxH (ch : List Nat → Nat) :
    Heap → Nat → Nat → EInt → EInt → Bool → Option ((Option Nat × EInt) × Heap)
  | heap, ref, 0, _, _, _ =>
    let board := readRef heap ref
    if is_terminal_node board then some (terminalResult board, heap)
    else some ((none, EInt.ofInt (score_position board AI_PIECE)), heap)
  | heap, ref, depth + 1, alpha, beta, maximizing_player =>
    let board := readRef heap ref
    let valid_locations := get_valid_locations board
    if is_terminal_node board then some (terminalResult board, heap)
    else if valid_locations.isEmpty then none
    else
      let column := ch valid_locations
      if maximizing_player then
        maxStepH (fun h r a b => minimaxH ch h r depth a b false) heap ref
          valid_locations alpha beta column ⊥
      else
        minStepH (fun h r a b => minimaxH ch h r depth a b true) heap ref
          valid_locations alpha beta column ⊤

/-- `h'` is `h` with possibly some boards allocated past the end: every
pre-existing board is unchanged. -/
def heapExtends (h h' : Heap) : Prop :=
  h.length ≤ h'.length ∧ ∀ i < h.length, h'.getD i [] = h.getD i []

theorem heapExtends_refl (h : Heap) : heapExtends h h := ⟨le_rfl, fun _ _ => rfl⟩

theorem heapExtends_trans {h₁ h₂ h₃ : Heap}
    (h12 : heapExtends h₁ h₂) (h23 : heapExtends h₂ h₃) : heapExtends h₁ h₃ :=
  ⟨le_trans h12.1 h23.1, fun i hi => by rw [h23.2 i (lt_of_lt_of_le hi h12.1), h12.2 i hi]⟩

/-- Allocating a copy (append then overwrite the fresh cell) extends the heap. -/
theorem heapExtends_alloc (heap : Heap) (b b' : Board) :
    heapExtends heap ((heap ++ [b]).set heap.length b') := by
  constructor
  · rw [List.length_set, List.length_append]
    simp
  · intro i hi
    rw [getD_set_ne _ _ _ _ _ (by omega), List.getD_append _ _ _ _ hi]

theorem maxStepH_frame
    (f : Heap → Nat → EInt → EInt → Option ((Option Nat × EInt) × Heap))
    (hf : ∀ heap ref a b res heap', f heap ref a b = some (res, heap') →
      heapExtends heap heap') :
    ∀ (l : List Nat) (heap : Heap) (ref : Nat) (alpha beta : EInt)
      (column : Nat) (value : EInt) (res : Option Nat × EInt) (heap' : Heap),
    maxStepH f heap ref l alpha beta column value = some (res, heap') →
    heapExtends heap heap' := by
  intro l
  induction l with
  | nil =>
    intro heap ref alpha beta column value res heap' h
    rw [maxStepH] at h
    obtain ⟨-, rfl⟩ := Prod.mk.injEq .. ▸ Option.some_inj.mp h
    exact heapExtends_refl heap
  | cons col rest ih =>
    intro heap ref alpha beta column value res heap' h
    rw [maxStepH] at h
    rcases hrow : get_next_open_row (readRef heap ref) col with - | row <;> rw [hrow] at h
    · exact absurd h (by simp)
    · simp only at h
      rcases hcall : f ((heap ++ [readRef heap ref]).set heap.length
            (setCell (readRef heap ref) row col AI_PIECE)) heap.length alpha beta with
          - | ⟨res0, heap3⟩ <;> rw [hcall] at h
      · exact absurd h (by simp)
      · have hx : heapExtends heap heap3 :=
          heapExtends_trans (heapExtends_alloc heap _ _) (hf _ _ _ _ _ _ hcall)
        simp only at h
        split_ifs at h <;>
          first
            | (obtain ⟨-, rfl⟩ := Prod.mk.injEq .. ▸ Option.some_inj.mp h
               exact hx)
            | exact heapExtends_trans hx (ih _ _ _ _ _ _ _ _ h)

theorem minStepH_frame
    (f : Heap → Nat → EInt → EInt → Option ((Option Nat × EInt) × Heap))
    (hf : ∀ heap ref a b res heap', f heap ref a b = some (res, heap') →
      heapExtends heap heap') :
    ∀ (l : List Nat) (heap : Heap) (ref : Nat) (alpha beta : EInt)
      (column : Nat) (value : EInt) (res : Option Nat × EInt) (heap' : Heap),
    minStepH f heap ref l alpha beta column value = some (res, heap') →
    heapExtends heap heap' := by
  intro l
  induction l with
  | nil =>
    intro heap ref alpha beta column value res heap' h
    rw [minStepH] at h
    obtain ⟨-, rfl⟩ := Prod.mk.injEq .. ▸ Option.some_inj.mp h
    exact heapExtends_refl heap
  | cons col rest ih =>
    intro heap ref alpha beta column value res heap' h
    rw [minStepH] at h
    rcases hrow : get_next_open_row (readRef heap ref) col with - | row <;> rw [hrow] at h
    · exact absurd h (by simp)
    · simp only at h
      rcases hcall : f ((heap ++ [readRef heap ref]).set heap.length
            (setCell (readRef heap ref) row col PLAYER_PIECE)) heap.length alpha beta with
          - | ⟨res0, heap3⟩ <;> rw [hcall] at h
      · exact absurd h (by simp)
      · have hx : heapExtends heap heap3 :=
          heapExtends_trans (heapExtends_alloc heap _ _) (hf _ _ _ _ _ _ hcall)
        simp only at h
        split_ifs at h <;>
          first
            | (obtain ⟨-, rfl⟩ := Prod.mk.injEq .. ▸ Option.some_inj.mp h
               exact hx)
            | exact heapExtends_trans hx (ih _ _ _ _ _ _ _ _ h)

theorem minimaxH_frame (ch : List Nat → Nat) :
    ∀ (depth : Nat) (heap : Heap) (ref : Nat) (alpha beta : EInt) (m : Bool)
      (res : Option Nat × EInt) (heap' : Heap),
    minimaxH ch heap ref depth alpha beta m = some (res, heap') →
    heapExtends heap heap' := by
  intro depth
  induction depth with
  | zero =>
    intro heap ref alpha beta m res heap' h
    rw [minimaxH] at h
    split_ifs at h <;>
      (obtain ⟨-, rfl⟩ := Prod.mk.injEq .. ▸ Option.some_inj.mp h
       exact heapExtends_refl heap)
  | succ d ih =>
    intro heap ref alpha beta m res heap' h
    rw [minimaxH] at h
    simp only at h
    split_ifs at h with ht hempty hmax
    · obtain ⟨-, rfl⟩ := Prod.mk.injEq .. ▸ Option.some_inj.mp h
      exact heapExtends_refl heap
    · exact maxStepH_frame _ (fun heap ref a b res heap' hcall =>
        ih heap ref a b false res heap' hcall) _ _ _ _ _ _ _ _ _ h
    · exact minStepH_frame _ (fun heap ref a b res heap' hcall =>
        ih heap ref a b true res heap' hcall) _ _ _ _ _ _ _ _ _ h

/-- C9: `minimax` never mutates its input board: in the heap model, every
board that exists before a call — the input `board` reference and all the
boards of enclosing calls — holds exactly the same value when the call
returns.  Each recursive branch receives a freshly allocated copy
(`board.copy()` then the single-cell write), so sibling search branches
never observe each other's moves. -/
theorem minimax_no_board_mutation (ch : List Nat → Nat) (depth : Nat)
    (heap : Heap) (ref : Nat) (alpha beta : EInt) (m : Bool)
    (res : Option Nat × EInt) (heap' : Heap)
    (href : ref < heap.length)
    (hcall : minimaxH ch heap ref depth alpha beta m = some (res, heap')) :
    readRef heap' ref = readRef heap ref ∧
    ∀ i < heap.length, heap'.getD i [] = heap.getD i [] := by
  have hx := minimaxH_frame ch depth heap ref alpha beta m res heap' hcall
  exact ⟨hx.2 ref href, hx.2⟩

/-- Witness for `minimax_no_board_mutation`: a depth-1 search from a
one-board heap holding the empty board returns with the input board
unchanged (the seven temp boards are fresh allocations). -/
theorem minimax_no_board_mutation_witness :
    readRef (emptyBoard ::
      ((List.range COLUMN_COUNT).map fun c => setCell emptyBoard 0 c AI_PIECE)) 0 =
      readRef [emptyBoard] 0 ∧
    ∀ i < ([emptyBoard] : Heap).length,
      (emptyBoard ::
        ((List.range COLUMN_COUNT).map fun c => setCell emptyBoard 0 c AI_PIECE)).getD i [] =
        ([emptyBoard] : Heap).getD i [] :=
  minimax_no_board_mutation chFirst 1 [emptyBoard] 0 ⊥ ⊤ true
    (some 3, EInt.ofInt 3) _ (by decide) (by decide)
